import Mathlib

/- Verification of the darner queue engine (src/include/darner/queue/queue.h).
   The header declares the class and fixes the key and header layouts; the method
   bodies live outside the provided sources, so each operation below is modelled
   from the specification, faithful to its words, and the claims are settled
   against that model. -/

namespace Darner

/-- A byte of a stored key or value. -/
abbrev Byte := Fin 256

/-- A raw byte string stored in the journal. -/
abbrev Value := List Byte

/-- Lay out a natural number as `w` little-endian bytes, the way the code stores a
host-endian (modelled little-endian) unsigned 64-bit integer in memory. -/
def natToLE : Nat → Nat → Value
  | 0, _ => []
  | w + 1, n => ⟨n % 256, Nat.mod_lt n (by norm_num)⟩ :: natToLE w (n / 256)

/-- Reinterpret a little-endian byte string as an unsigned integer, the way the code
reads fields back out of raw memory. -/
def leToNat : Value → Nat
  | [] => 0
  | b :: bs => b.val + 256 * leToNat bs

/-- Queue item metadata header (`queue::header_type` in queue.h): the item points to
the chunk range `[beg, end)` holding `size` total payload bytes. -/
structure Header where
  beg : Nat
  end_ : Nat
  size : Nat
  deriving DecidableEq

/-- Byte length of an encoded header: three unsigned 64-bit fields,
`sizeof(id_type) * 2 + sizeof(size_type) = 24` for the fields of `header_type`. -/
def headerLen : Nat := 24

/-- Modelled from the spec: `header_type::str()` (declared in queue.h, body missing
from src) serializes the three fields as 24 consecutive host-endian bytes. -/
def encodeHeader (h : Header) : Value :=
  natToLE 8 h.beg ++ (natToLE 8 h.end_ ++ natToLE 8 h.size)

/-- The `header_type(const std::string&)` constructor in queue.h reinterprets the
buffer bytes as the three 8-byte fields at offsets 0, 8 and 16. -/
def decodeHeader (v : Value) : Header :=
  { beg := leToNat (v.take 8),
    end_ := leToNat ((v.drop 8).take 8),
    size := leToNat (((v.drop 8).drop 8).take 8) }

/-- A decoded journal key (`queue::key_type`): a 1-byte type discriminator
(`KT_QUEUE = 1`, `KT_CHUNK = 2`) and an unsigned 64-bit id. -/
structure KeyRec where
  type : Byte
  id : Nat
  deriving DecidableEq

/-- The `KT_QUEUE` discriminator byte. -/
def KT_QUEUE : Byte := 1

/-- The `KT_CHUNK` discriminator byte. -/
def KT_CHUNK : Byte := 2

/-- Modelled from the spec: `key_type::slice()` (declared in queue.h, body missing
from src) lays the key out as 8 id bytes followed by the 1 type byte, matching the
inline slice constructor which reads the id from the first 8 bytes and the type from
offset `sizeof(id_type)`, and the 9-byte `buf_` backing array. -/
def encodeKey (k : KeyRec) : Value := natToLE 8 k.id ++ [k.type]

/-- The `key_type(const leveldb::Slice&)` constructor in queue.h: the type is the
byte at offset `sizeof(id_type) = 8` and the id is the first 8 bytes reinterpreted
as an unsigned 64-bit integer. -/
def keyOfSlice (s : Value) : KeyRec :=
  { type := s.getD 8 0, id := leToNat (s.take 8) }

/-- Modelled from the spec: `key_type::compare` (declared in queue.h, body missing
from src) compares keys by type ascending first and, within a type, by id compared
as a native unsigned 64-bit integer ascending. -/
def keyCompare (a b : KeyRec) : Int :=
  if a.type.val < b.type.val then -1
  else if b.type.val < a.type.val then 1
  else if a.id < b.id then -1
  else if b.id < a.id then 1
  else 0

/-- `queue::comparator::Compare` (inline in queue.h): decode both slices through the
slice constructor and delegate to `key_type::compare`. -/
def comparatorCompare (a b : Value) : Int :=
  keyCompare (keyOfSlice a) (keyOfSlice b)

/-- One namespace of the journal, as an association list from id to stored value. -/
abbrev Recs := List (Nat × Value)

/-- Point lookup in a journal namespace. -/
def getRec (recs : Recs) (k : Nat) : Option Value :=
  (recs.find? (fun p => p.1 == k)).map (fun p => p.2)

/-- Write (insert or overwrite) a record in a journal namespace. -/
def putRec (recs : Recs) (k : Nat) (v : Value) : Recs :=
  (k, v) :: recs.filter (fun p => p.1 != k)

/-- Delete a record from a journal namespace. -/
def delRec (recs : Recs) (k : Nat) : Recs :=
  recs.filter (fun p => p.1 != k)

/-- Delete every record with id in `[beg, end_)` from a journal namespace. -/
def delRange (recs : Recs) (beg end_ : Nat) : Recs :=
  recs.filter (fun p => ! decide (beg ≤ p.1 ∧ p.1 < end_))

/-- The journal contents: the QUEUE records and the CHUNK records, each keyed by id
within its type namespace. -/
structure Journal where
  queueRecs : Recs
  chunkRecs : Recs
  deriving DecidableEq

/-- The queue state: the journal plus the in-memory members of class `queue`
(`queue_head_`, `queue_tail_`, `chunks_head_`, `items_open_`, `returned_`). -/
structure QueueState where
  journal : Journal
  queue_head : Nat
  queue_tail : Nat
  chunks_head : Nat
  items_open : Nat
  returned : Finset Nat
  deriving DecidableEq

/-- Modelled from the spec: `queue::push(result, value)` (declared in queue.h, body
missing from src) allocates `id = queue_head`, writes key `(QUEUE, id)` with the
payload as value and advances `queue_head`. `writeOk` is the outcome of the journal
write: on failure the error is surfaced with no cursor mutation and no id consumed. -/
def pushW (s : QueueState) (v : Value) (writeOk : Bool) : QueueState × Option Nat :=
  if writeOk then
    ({ s with
        journal := { s.journal with
          queueRecs := putRec s.journal.queueRecs s.queue_head v },
        queue_head := s.queue_head + 1 },
      some s.queue_head)
  else (s, none)

/-- `queue::push` on the successful journal-write path, paired with the assigned id. -/
def push (s : QueueState) (v : Value) : QueueState × Nat :=
  ((pushW s v true).1, s.queue_head)

/-- Modelled from the spec: the `queue::push(result, header)` overload stores the
encoded header as the value; on a failed write nothing is mutated. -/
def pushHeaderW (s : QueueState) (h : Header) (writeOk : Bool) :
    QueueState × Option Nat :=
  pushW s (encodeHeader h) writeOk

/-- The header overload of `queue::push` on the successful journal-write path. -/
def pushHeader (s : QueueState) (h : Header) : QueueState × Nat :=
  push s (encodeHeader h)

/-- Modelled from the spec: inside `queue::pop_open` (body missing from src) a stored
value is treated as chunked exactly when its length equals the encoded-header length
and it decodes to a header with `beg < end ≤ chunks_head`; then the header is
produced and the result value left empty. Otherwise the item is inline and the raw
payload becomes the result value. -/
def classify (s : QueueState) (v : Value) : Option Header × Value :=
  if v.length = headerLen ∧ (decodeHeader v).beg < (decodeHeader v).end_ ∧
      (decodeHeader v).end_ ≤ s.chunks_head then
    (some (decodeHeader v), [])
  else (none, v)

/-- Modelled from the spec: `queue::pop_open` (declared in queue.h, body missing
from src). Candidate priority: the smallest id in `returned`, else `queue_tail` when
`queue_tail < queue_head` (advancing the tail), else no candidate and no change.
The chosen id moves to the open state (`items_open` incremented); its QUEUE record
stays in the journal during the open phase. -/
def popOpen (s : QueueState) : Option (Nat × (Option Header × Value)) × QueueState :=
  if h : s.returned.Nonempty then
    let id := s.returned.min' h
    let v := (getRec s.journal.queueRecs id).getD []
    (some (id, classify s v),
      { s with returned := s.returned.erase id, items_open := s.items_open + 1 })
  else if s.queue_tail < s.queue_head then
    let v := (getRec s.journal.queueRecs s.queue_tail).getD []
    (some (s.queue_tail, classify s v),
      { s with queue_tail := s.queue_tail + 1, items_open := s.items_open + 1 })
  else (none, s)

/-- Modelled from the spec: `queue::pop_close` (declared in queue.h, body missing
from src). With `remove = true` the QUEUE record of `id` is deleted together with
the chunk range of the header, if any, and `items_open` is decremented. With
`remove = false` the id is inserted into `returned` and `items_open` decremented. -/
def popClose (s : QueueState) (remove : Bool) (id : Nat) (hdr : Option Header) :
    QueueState :=
  if remove then
    { s with
        journal :=
          { queueRecs := delRec s.journal.queueRecs id,
            chunkRecs :=
              match hdr with
              | some h => delRange s.journal.chunkRecs h.beg h.end_
              | none => s.journal.chunkRecs },
        items_open := s.items_open - 1 }
  else
    { s with returned := insert id s.returned, items_open := s.items_open - 1 }

/-- Modelled from the spec: `queue::reserve_chunks` returns a header covering
`[chunks_head, chunks_head + n)` with size 0 and advances `chunks_head` by `n`; no
journal write happens at reservation time. -/
def reserveChunks (s : QueueState) (n : Nat) : Header × QueueState :=
  (⟨s.chunks_head, s.chunks_head + n, 0⟩,
    { s with chunks_head := s.chunks_head + n })

/-- Modelled from the spec: `queue::write_chunk` writes `(CHUNK, chunk_key)` with
the raw bytes as value. -/
def writeChunk (s : QueueState) (v : Value) (chunk_key : Nat) : QueueState :=
  { s with journal := { s.journal with
      chunkRecs := putRec s.journal.chunkRecs chunk_key v } }

/-- Modelled from the spec: `queue::read_chunk` reads `(CHUNK, chunk_key)`. -/
def readChunk (s : QueueState) (chunk_key : Nat) : Option Value :=
  getRec s.journal.chunkRecs chunk_key

/-- Modelled from the spec: `queue::erase_chunks` deletes every chunk record with id
in `[header.beg, header.end)`. -/
def eraseChunks (s : QueueState) (h : Header) : QueueState :=
  { s with journal := { s.journal with
      chunkRecs := delRange s.journal.chunkRecs h.beg h.end_ } }

/-- Modelled from the spec: `queue::count` (declared in queue.h, body missing from
src) reports the items eligible for pop: `(queue_head - queue_tail) + |returned|`. -/
def count (s : QueueState) : Nat :=
  s.queue_head - s.queue_tail + s.returned.card

/-- One core queue operation, for quantifying over operation sequences. -/
inductive Op where
  | push (v : Value)
  | pushHeader (h : Header)
  | popOpen
  | popClose (remove : Bool) (id : Nat) (hdr : Option Header)
  | reserveChunks (n : Nat)
  | writeChunk (v : Value) (chunk_key : Nat)
  | readChunk (chunk_key : Nat)
  | eraseChunks (h : Header)

/-- Apply one operation to the queue state (reads leave the state unchanged). -/
def applyOp (s : QueueState) : Op → QueueState
  | .push v => (push s v).1
  | .pushHeader h => (pushHeader s h).1
  | .popOpen => (popOpen s).2
  | .popClose r id hdr => popClose s r id hdr
  | .reserveChunks n => (reserveChunks s n).2
  | .writeChunk v k => writeChunk s v k
  | .readChunk _ => s
  | .eraseChunks h => eraseChunks s h

/-- Run a sequence of operations left to right. -/
def run (s : QueueState) (ops : List Op) : QueueState := ops.foldl applyOp s

/-- The state of a freshly created queue over an empty journal. -/
def initState : QueueState :=
  { journal := ⟨[], []⟩, queue_head := 0, queue_tail := 0, chunks_head := 0,
    items_open := 0, returned := ∅ }

/-- The distinct QUEUE ids present in a journal. -/
def queueIds (j : Journal) : Finset Nat :=
  (j.queueRecs.map (fun p => p.1)).toFinset

/-- The distinct CHUNK ids present in a journal. -/
def chunkIds (j : Journal) : Finset Nat :=
  (j.chunkRecs.map (fun p => p.1)).toFinset

/-- Modelled from the spec: the `queue` constructor (declared in queue.h, body
missing from src) scans the journal on open: `queue_tail` becomes the minimum
surviving QUEUE id (0 if none), `queue_head` the maximum QUEUE id plus one (0 if
none), `chunks_head` the maximum CHUNK id plus one (0 if none); `returned` starts
empty and `items_open` at 0. -/
def recover (j : Journal) : QueueState :=
  { journal := j,
    queue_tail := if h : (queueIds j).Nonempty then (queueIds j).min' h else 0,
    queue_head := if h : (queueIds j).Nonempty then (queueIds j).max' h + 1 else 0,
    chunks_head := if h : (chunkIds j).Nonempty then (chunkIds j).max' h + 1 else 0,
    items_open := 0,
    returned := ∅ }

/-- The producer side of a chunked item between `reserve_chunks` and `push(header)`:
write the payload pieces to the consecutive reserved chunk keys starting at `beg`. -/
def writeChunks (s : QueueState) (beg : Nat) : List Value → QueueState
  | [] => s
  | p :: ps => writeChunks (writeChunk s p beg) (beg + 1) ps

/-- The consumer side of a chunked item: concatenate `read_chunk` over `n`
consecutive chunk keys starting at `beg` (a missing chunk reads as empty). -/
def readRange (s : QueueState) (beg : Nat) : Nat → Value
  | 0 => []
  | n + 1 => (readChunk s beg).getD [] ++ readRange s (beg + 1) n

/-- The full producer protocol for a chunked item: reserve `ps.length` chunks, write
each piece, then push the header with the total size filled in. -/
def produceChunked (s : QueueState) (ps : List Value) : QueueState × Nat :=
  pushHeader (writeChunks (reserveChunks s ps.length).2
      (reserveChunks s ps.length).1.beg ps)
    ⟨(reserveChunks s ps.length).1.beg, (reserveChunks s ps.length).1.end_,
      ps.flatten.length⟩

/-- Modelled from the spec: the wait scheduler. `avail` abstracts the number of
items eligible for pop, `waiters` holds the pending waiter ids in registration
order, and `fired` records each fired callback with its status (`true` = success,
`false` = timeout) in firing order. -/
structure WaitState where
  avail : Nat
  waiters : List Nat
  fired : List (Nat × Bool)
  deriving DecidableEq

/-- A wait scheduler with no availability, no waiters and nothing fired. -/
def waitInit : WaitState := ⟨0, [], []⟩

/-- Modelled from the spec: `queue::wait` with a positive timeout appends a waiter
to the end of the ordered waiter list and arms its timer. -/
def waitOp (s : WaitState) (w : Nat) : WaitState :=
  { s with waiters := s.waiters ++ [w] }

/-- Modelled from the spec: the loop of `queue::spin_waiters`, fueled by the waiter
count: while an item is available and a waiter is pending, wake the oldest waiter
with success; the woken callback pops the item in the same turn, consuming the
availability. -/
def spinGo : Nat → WaitState → WaitState
  | 0, s => s
  | fuel + 1, s =>
    match s.waiters, s.avail with
    | w :: rest, a + 1 => spinGo fuel ⟨a, rest, s.fired ++ [(w, true)]⟩
    | _, _ => s

/-- Modelled from the spec: `queue::spin_waiters` cranks the wake loop until either
no waiter or no availability remains. -/
def spinWaiters (s : WaitState) : WaitState := spinGo s.waiters.length s

/-- A push as seen by the wait scheduler: one more item available, then spin. -/
def pushAvail (s : WaitState) : WaitState :=
  spinWaiters { s with avail := s.avail + 1 }

/-- Perform `m` pushes against the wait scheduler. -/
def pushN (s : WaitState) : Nat → WaitState
  | 0 => s
  | m + 1 => pushN (pushAvail s) m

/-- Modelled from the spec: `queue::waiter_timeout` fires each still-pending waiter
exactly once with timeout status, in list order, once its deadline elapses. -/
def timeoutAll (s : WaitState) : WaitState :=
  { s with waiters := [], fired := s.fired ++ s.waiters.map (fun w => (w, false)) }

/-- Register a list of waiters in order. -/
def registerAll (s : WaitState) (ws : List Nat) : WaitState := ws.foldl waitOp s

/-- A 24-byte inline payload that coincides with the encoding of a header whose
chunk range `[0, 1)` is valid once one chunk has been reserved. -/
def ambiguousPayload : Value := encodeHeader ⟨0, 1, 0⟩

/-- A state where one chunk was reserved and written and then `ambiguousPayload`
was pushed as an ordinary inline payload. -/
def ambiguousState : QueueState :=
  (push (writeChunk (reserveChunks initState 1).2 [65] 0) ambiguousPayload).1

/-- A crash state with items 0 and 2 still open after item 1 was removed out of
order: the surviving QUEUE ids have a gap at 1. -/
def gapState : QueueState :=
  run initState
    [.push [10], .push [11], .push [12], .popOpen, .popOpen, .popOpen,
     .popClose true 1 none]

/-- A small state whose `returned` set holds id 5 while ids up to 6 were assigned:
the journal still holds records 5 and 6, id 6 is open. -/
def returnedExState : QueueState :=
  { journal := ⟨[(5, [70]), (6, [71])], []⟩, queue_head := 7, queue_tail := 7,
    chunks_head := 0, items_open := 1, returned := {5} }

/-- A two-record journal with ids 1 and 2 surviving, used to exercise recovery. -/
def recoverExJournal : Journal := ⟨[(1, [65]), (2, [66])], []⟩

/-- Reading back `w` little-endian bytes of `n` recovers `n` modulo `256 ^ w`. -/
theorem leToNat_natToLE (w n : Nat) : leToNat (natToLE w n) = n % 256 ^ w := by
  induction w generalizing n with
  | zero => simp [natToLE, leToNat, Nat.mod_one]
  | succ w ih =>
      simp only [natToLE, leToNat, ih]
      rw [pow_succ', Nat.mod_mul]

/-- The little-endian layout of a number occupies exactly `w` bytes. -/
theorem natToLE_length (w n : Nat) : (natToLE w n).length = w := by
  induction w generalizing n with
  | zero => rfl
  | succ w ih => simp [natToLE, ih]

/-- Taking the first 8 bytes of an 8-byte field followed by anything yields the
field. -/
theorem take8_append (l1 l2 : Value) (h : l1.length = 8) : (l1 ++ l2).take 8 = l1 := by
  rw [← h, List.take_left]

/-- Dropping the first 8 bytes of an 8-byte field followed by anything yields the
rest. -/
theorem drop8_append (l1 l2 : Value) (h : l1.length = 8) : (l1 ++ l2).drop 8 = l2 := by
  rw [← h, List.drop_left]

/-- Decoding an encoded header recovers the header, as long as each field fits in
an unsigned 64-bit integer. -/
theorem decodeHeader_encodeHeader (h : Header) (h1 : h.beg < 2 ^ 64)
    (h2 : h.end_ < 2 ^ 64) (h3 : h.size < 2 ^ 64) :
    decodeHeader (encodeHeader h) = h := by
  obtain ⟨b, e, sz⟩ := h
  have e256 : (256 : Nat) ^ 8 = 2 ^ 64 := by norm_num
  unfold decodeHeader encodeHeader
  rw [take8_append _ _ (natToLE_length 8 b), drop8_append _ _ (natToLE_length 8 b),
    take8_append _ _ (natToLE_length 8 e), drop8_append _ _ (natToLE_length 8 e),
    List.take_of_length_le (le_of_eq (natToLE_length 8 sz)),
    leToNat_natToLE, leToNat_natToLE, leToNat_natToLE, e256,
    Nat.mod_eq_of_lt h1, Nat.mod_eq_of_lt h2, Nat.mod_eq_of_lt h3]

/-- An encoded header is exactly `headerLen` bytes long. -/
theorem encodeHeader_length (h : Header) : (encodeHeader h).length = headerLen := by
  simp [encodeHeader, natToLE_length, headerLen]

/-- Decoding an encoded key through the slice constructor recovers the key, as long
as the id fits in an unsigned 64-bit integer. -/
theorem keyOfSlice_encodeKey (k : KeyRec) (h : k.id < 2 ^ 64) :
    keyOfSlice (encodeKey k) = k := by
  obtain ⟨t, i⟩ := k
  have hl : (natToLE 8 i).length = 8 := natToLE_length 8 i
  have e256 : (256 : Nat) ^ 8 = 2 ^ 64 := by norm_num
  have htyp : (natToLE 8 i ++ [t]).getD 8 0 = t := by
    rw [List.getD_eq_getElem?_getD, List.getElem?_append_right (le_of_eq hl), hl]
    rfl
  unfold keyOfSlice encodeKey
  rw [htyp, take8_append _ _ hl, leToNat_natToLE, e256, Nat.mod_eq_of_lt h]

/-- The compare result is negative exactly for (type asc, id asc) strict order. -/
theorem keyCompare_neg_iff (a b : KeyRec) :
    keyCompare a b < 0 ↔
      a.type.val < b.type.val ∨ (a.type = b.type ∧ a.id < b.id) := by
  unfold keyCompare
  have ht : a.type = b.type ↔ a.type.val = b.type.val := Fin.ext_iff
  split_ifs <;> rw [ht] <;> omega

/-- The compare result is zero exactly for equal keys. -/
theorem keyCompare_eq_zero_iff (a b : KeyRec) :
    keyCompare a b = 0 ↔ a.type = b.type ∧ a.id = b.id := by
  unfold keyCompare
  have ht : a.type = b.type ↔ a.type.val = b.type.val := Fin.ext_iff
  split_ifs <;> rw [ht] <;> norm_num <;> omega

/-- Claim C6: every key is encoded fixed-width as 8 id bytes followed by 1 type
byte, and the installed comparator orders encoded keys by type ascending first and,
within equal types, by id as a native unsigned 64-bit integer ascending. -/
theorem key_codec_comparator_order (t1 t2 : Byte) (i1 i2 : Nat)
    (h1 : i1 < 2 ^ 64) (h2 : i2 < 2 ^ 64) :
    encodeKey ⟨t1, i1⟩ = natToLE 8 i1 ++ [t1] ∧
    (encodeKey ⟨t1, i1⟩).length = 9 ∧
    (comparatorCompare (encodeKey ⟨t1, i1⟩) (encodeKey ⟨t2, i2⟩) < 0 ↔
      t1.val < t2.val ∨ (t1 = t2 ∧ i1 < i2)) ∧
    (comparatorCompare (encodeKey ⟨t1, i1⟩) (encodeKey ⟨t2, i2⟩) = 0 ↔
      t1 = t2 ∧ i1 = i2) := by
  have e1 := keyOfSlice_encodeKey ⟨t1, i1⟩ h1
  have e2 := keyOfSlice_encodeKey ⟨t2, i2⟩ h2
  refine ⟨rfl, ?_, ?_, ?_⟩
  · simp [encodeKey, natToLE_length]
  · unfold comparatorCompare
    rw [e1, e2, keyCompare_neg_iff]
  · unfold comparatorCompare
    rw [e1, e2, keyCompare_eq_zero_iff]

/-- Witness for C6 at concrete keys: a QUEUE key sorts before a CHUNK key, and
within a type the smaller id sorts first. -/
theorem key_codec_comparator_order_witness :
    comparatorCompare (encodeKey ⟨KT_QUEUE, 3⟩) (encodeKey ⟨KT_CHUNK, 2⟩) < 0 ∧
    comparatorCompare (encodeKey ⟨KT_QUEUE, 2⟩) (encodeKey ⟨KT_QUEUE, 3⟩) < 0 := by
  constructor
  · exact (key_codec_comparator_order KT_QUEUE KT_CHUNK 3 2 (by norm_num)
      (by norm_num)).2.2.1.mpr (Or.inl (by decide))
  · exact (key_codec_comparator_order KT_QUEUE KT_QUEUE 2 3 (by norm_num)
      (by norm_num)).2.2.1.mpr (Or.inr ⟨rfl, by decide⟩)

/-- Claim C9: a failed journal write in either push overload surfaces the error
with the state unchanged - no queue cursor, chunk head, open count or returned set
mutation - and no id consumed. -/
theorem push_write_failure_atomic (s : QueueState) (v : Value) (h : Header) :
    pushW s v false = (s, none) ∧ pushHeaderW s h false = (s, none) ∧
    (pushW s v false).1.queue_head = s.queue_head ∧
    (pushW s v false).1.queue_tail = s.queue_tail ∧
    (pushW s v false).1.chunks_head = s.chunks_head ∧
    (pushW s v false).1.items_open = s.items_open ∧
    (pushW s v false).1.returned = s.returned ∧
    (pushW s v false).1.journal = s.journal :=
  ⟨rfl, rfl, rfl, rfl, rfl, rfl, rfl, rfl⟩

/-- Claim C3: along every operation sequence, at every quiescent point the item
count equals `(queue_head - queue_tail) + |returned|`. -/
theorem count_eq_cursors (ops : List Op) :
    count (run initState ops) =
      (run initState ops).queue_head - (run initState ops).queue_tail +
        (run initState ops).returned.card := rfl

/-- pop_open when `returned` is non-empty: the smallest returned id is served, the
tail cursor stays put. -/
theorem popOpen_returned_case (s : QueueState) (h : s.returned.Nonempty) :
    popOpen s = (some (s.returned.min' h,
        classify s ((getRec s.journal.queueRecs (s.returned.min' h)).getD [])),
      { s with returned := s.returned.erase (s.returned.min' h),
               items_open := s.items_open + 1 }) := by
  unfold popOpen
  rw [dif_pos h]

/-- pop_open when `returned` is empty and an enqueued item exists: the tail item is
served and the tail advanced. -/
theorem popOpen_tail_case (s : QueueState) (v : Value)
    (hret : s.returned = ∅) (htl : s.queue_tail < s.queue_head)
    (hv : getRec s.journal.queueRecs s.queue_tail = some v) :
    popOpen s = (some (s.queue_tail, classify s v),
      { s with queue_tail := s.queue_tail + 1, items_open := s.items_open + 1 }) := by
  have hne : ¬ s.returned.Nonempty := by
    rw [Finset.not_nonempty_iff_eq_empty]; exact hret
  unfold popOpen
  rw [dif_neg hne, if_pos htl, hv]
  rfl

/-- pop_open on an empty queue: no candidate, no state change. -/
theorem popOpen_empty_case (s : QueueState) (hret : s.returned = ∅)
    (htl : ¬ s.queue_tail < s.queue_head) : popOpen s = (none, s) := by
  have hne : ¬ s.returned.Nonempty := by
    rw [Finset.not_nonempty_iff_eq_empty]; exact hret
  unfold popOpen
  rw [dif_neg hne, if_neg htl]

/-- Claim C2: pop_open serves the smallest id in `returned` first (leaving the tail
cursor untouched, so a returned id is served before the current `queue_tail`); with
no returned id it serves `queue_tail` when `queue_tail < queue_head`, advancing the
tail by one and incrementing `items_open`; otherwise it reports no candidate and
changes no cursor. -/
theorem popOpen_candidate_selection (s : QueueState) :
    (∀ h : s.returned.Nonempty,
        (popOpen s).1 = some (s.returned.min' h,
            classify s ((getRec s.journal.queueRecs (s.returned.min' h)).getD [])) ∧
        (popOpen s).2 = { s with returned := s.returned.erase (s.returned.min' h),
                                 items_open := s.items_open + 1 }) ∧
    (s.returned = ∅ → s.queue_tail < s.queue_head →
        (popOpen s).1.map (fun r => r.1) = some s.queue_tail ∧
        (popOpen s).2 = { s with queue_tail := s.queue_tail + 1,
                                 items_open := s.items_open + 1 }) ∧
    (s.returned = ∅ → ¬ s.queue_tail < s.queue_head → popOpen s = (none, s)) := by
  refine ⟨?_, ?_, ?_⟩
  · intro h
    rw [popOpen_returned_case s h]
    exact ⟨rfl, rfl⟩
  · intro hret htl
    obtain ⟨v, hv⟩ :
        ∃ v, (getRec s.journal.queueRecs s.queue_tail).getD [] = v := ⟨_, rfl⟩
    have hv2 : getRec s.journal.queueRecs s.queue_tail = some
        ((getRec s.journal.queueRecs s.queue_tail).getD []) ∨
        getRec s.journal.queueRecs s.queue_tail = none := by
      cases getRec s.journal.queueRecs s.queue_tail with
      | none => exact Or.inr rfl
      | some w => exact Or.inl rfl
    have hne : ¬ s.returned.Nonempty := by
      rw [Finset.not_nonempty_iff_eq_empty]; exact hret
    constructor
    · show ((popOpen s).1).map (fun r => r.1) = some s.queue_tail
      unfold popOpen
      rw [dif_neg hne, if_pos htl]
      rfl
    · show (popOpen s).2 = _
      unfold popOpen
      rw [dif_neg hne, if_pos htl]
  · intro hret htl
    exact popOpen_empty_case s hret htl

/-- Witness for C2 at a concrete state: with `returned = {5}` pop_open serves id 5
and erases it while the tail stays at 7. -/
theorem popOpen_candidate_selection_witness :
    (popOpen returnedExState).1 = some (5, (none, [70])) ∧
    (popOpen returnedExState).2.queue_tail = 7 ∧
    (popOpen returnedExState).2.returned = ∅ := by
  have h := (popOpen_candidate_selection returnedExState).1 (of_decide_eq_true rfl)
  refine ⟨h.1.trans (by decide), ?_, ?_⟩
  · rw [h.2]; rfl
  · rw [h.2]; decide

/-- Claim C10: `returned` is a set of ids: releasing an id already present leaves
exactly one copy, the release contributes nothing further to `count()` (at most one
copy is ever counted), and a pop_open that serves a returned id removes it from the
set, so it is handed out at most once per return cycle. -/
theorem returned_is_set (s : QueueState) (id : Nat) (hdr : Option Header)
    (h : id ∈ s.returned) :
    (popClose s false id hdr).returned = s.returned ∧
    id ∈ (popClose s false id hdr).returned ∧
    count (popClose s false id hdr) = count s ∧
    (popClose s false id hdr).returned.card ≤ s.returned.card + 1 ∧
    (∀ h2 : s.returned.Nonempty, s.returned.min' h2 ∉ ((popOpen s).2).returned) := by
  have hr : (popClose s false id hdr).returned = insert id s.returned := rfl
  have heq : insert id s.returned = s.returned := Finset.insert_eq_self.mpr h
  have hre : (popClose s false id hdr).returned = s.returned := hr.trans heq
  refine ⟨hre, ?_, ?_, ?_, ?_⟩
  · rw [hre]; exact h
  · show (popClose s false id hdr).queue_head - (popClose s false id hdr).queue_tail
        + (popClose s false id hdr).returned.card = count s
    rw [hre]
    rfl
  · rw [hre]; omega
  · intro h2
    rw [popOpen_returned_case s h2]
    exact Finset.not_mem_erase _ _

/-- Witness for C10 at a concrete state: releasing id 5 into a `returned` set that
already holds it leaves the set `{5}` and the count unchanged at 1. -/
theorem returned_is_set_witness :
    (popClose returnedExState false 5 none).returned = {5} ∧
    count (popClose returnedExState false 5 none) = 1 := by
  have h := returned_is_set returnedExState 5 none (by decide)
  exact ⟨h.1.trans (by decide), h.2.2.1.trans (by decide)⟩

/-- Claim C5: pop_open marks the served item chunked - header set, value empty -
exactly when the stored value has the encoded-header length and decodes to a header
with `beg < end ≤ chunks_head`; any other stored value is served inline, with no
header and the raw payload as the value. -/
theorem popOpen_inline_chunked (s : QueueState) (v : Value)
    (hret : s.returned = ∅) (htl : s.queue_tail < s.queue_head)
    (hv : getRec s.journal.queueRecs s.queue_tail = some v) :
    ((popOpen s).1 = some (s.queue_tail, (some (decodeHeader v), [])) ↔
      v.length = headerLen ∧ (decodeHeader v).beg < (decodeHeader v).end_ ∧
        (decodeHeader v).end_ ≤ s.chunks_head) ∧
    (¬ (v.length = headerLen ∧ (decodeHeader v).beg < (decodeHeader v).end_ ∧
          (decodeHeader v).end_ ≤ s.chunks_head) →
      (popOpen s).1 = some (s.queue_tail, (none, v))) := by
  have key := popOpen_tail_case s v hret htl hv
  by_cases hc : v.length = headerLen ∧ (decodeHeader v).beg < (decodeHeader v).end_ ∧
      (decodeHeader v).end_ ≤ s.chunks_head
  · constructor
    · rw [key]
      simp [classify, hc]
    · intro hnc
      exact absurd hc hnc
  · constructor
    · rw [key]
      simp [classify, hc]
    · intro _
      rw [key]
      simp [classify, hc]

/-- Witness for C5 at concrete states: a 1-byte payload pops inline, while the
ambiguous 24-byte payload pops as chunked. -/
theorem popOpen_inline_chunked_witness :
    (popOpen (push initState [7]).1).1 = some (0, (none, [7])) ∧
    (popOpen ambiguousState).1 = some (0, (some ⟨0, 1, 0⟩, [])) := by
  constructor
  · have h := popOpen_inline_chunked (push initState [7]).1 [7] (by decide) (by decide)
      (by decide)
    exact (h.2 (by decide)).trans (by decide)
  · have h := popOpen_inline_chunked ambiguousState ambiguousPayload (by decide)
      (by decide) (by decide)
    exact (h.1.mpr (by decide)).trans (by decide)

/-- No single operation ever decreases the `queue_head` cursor. -/
theorem applyOp_queue_head_le (s : QueueState) (o : Op) :
    s.queue_head ≤ (applyOp s o).queue_head := by
  cases o with
  | push v => exact Nat.le_succ _
  | pushHeader h => exact Nat.le_succ _
  | popOpen =>
      show s.queue_head ≤ ((popOpen s).2).queue_head
      unfold popOpen
      split_ifs <;> exact Nat.le_refl _
  | popClose r id hdr =>
      show s.queue_head ≤ (popClose s r id hdr).queue_head
      unfold popClose
      split_ifs <;> exact Nat.le_refl _
  | reserveChunks n => exact Nat.le_refl _
  | writeChunk v k => exact Nat.le_refl _
  | readChunk k => exact Nat.le_refl _
  | eraseChunks h => exact Nat.le_refl _

/-- No operation sequence ever decreases the `queue_head` cursor. -/
theorem run_queue_head_le (s : QueueState) (ops : List Op) :
    s.queue_head ≤ (run s ops).queue_head := by
  induction ops generalizing s with
  | nil => exact Nat.le_refl _
  | cons o ops ih => exact le_trans (applyOp_queue_head_le s o) (ih (applyOp s o))

/-- Claim C4: the id assigned by a push is strictly smaller than the id assigned by
any later push of the same queue instance, whatever operations - including removals -
happen in between; hence an id is never assigned twice. -/
theorem push_ids_strictly_increasing (s : QueueState) (v1 v2 : Value)
    (mid : List Op) :
    (push s v1).2 < (push (run (push s v1).1 mid) v2).2 ∧
    (push s v1).2 ≠ (push (run (push s v1).1 mid) v2).2 := by
  have h1 : (push s v1).1.queue_head = s.queue_head + 1 := rfl
  have h2 := run_queue_head_le (push s v1).1 mid
  have h3 : (push s v1).2 = s.queue_head := rfl
  have h4 : (push (run (push s v1).1 mid) v2).2 =
      (run (push s v1).1 mid).queue_head := rfl
  rw [h1] at h2
  rw [h3, h4]
  omega

/-- Looking up the key just written returns the written value. -/
theorem getRec_putRec_same (recs : Recs) (k : Nat) (v : Value) :
    getRec (putRec recs k v) k = some v := by
  simp [getRec, putRec, List.find?_cons]

/-- Filtering with a predicate that keeps every record of key `k2` does not change
the lookup of `k2`. -/
theorem find?_filter_keep (recs : Recs) (k2 : Nat) (q : Nat × Value → Bool)
    (hq : ∀ p : Nat × Value, p.1 = k2 → q p = true) :
    List.find? (fun p => p.1 == k2) (recs.filter q) =
      List.find? (fun p => p.1 == k2) recs := by
  induction recs with
  | nil => rfl
  | cons p rest ih =>
      by_cases hpk : p.1 = k2
      · have hqp : q p = true := hq p hpk
        simp [List.filter_cons, hqp, List.find?_cons, hpk]
      · by_cases hqp : q p = true
        · simp [List.filter_cons, hqp, List.find?_cons, hpk, ih]
        · simp [List.filter_cons, hqp, List.find?_cons, hpk, ih]

/-- Writing one key does not disturb the lookup of a different key. -/
theorem getRec_putRec_ne (recs : Recs) (k k2 : Nat) (v : Value) (h : k ≠ k2) :
    getRec (putRec recs k v) k2 = getRec recs k2 := by
  unfold getRec putRec
  rw [List.find?_cons]
  have hbk : ((k, v).1 == k2) = false := by simp [h]
  rw [hbk]
  rw [find?_filter_keep]
  intro p hp
  simp [hp]
  omega

/-- Writing a run of chunks touches only the chunk namespace: every queue cursor and
the QUEUE records are unchanged. -/
theorem writeChunks_fields (s : QueueState) (beg : Nat) (ps : List Value) :
    (writeChunks s beg ps).journal.queueRecs = s.journal.queueRecs ∧
    (writeChunks s beg ps).queue_head = s.queue_head ∧
    (writeChunks s beg ps).queue_tail = s.queue_tail ∧
    (writeChunks s beg ps).chunks_head = s.chunks_head ∧
    (writeChunks s beg ps).items_open = s.items_open ∧
    (writeChunks s beg ps).returned = s.returned := by
  induction ps generalizing s beg with
  | nil => exact ⟨rfl, rfl, rfl, rfl, rfl, rfl⟩
  | cons p ps ih => exact ih (writeChunk s p beg) (beg + 1)

/-- Chunks written at or above `beg` do not disturb reads below `beg`. -/
theorem readChunk_writeChunks_lt (s : QueueState) (beg k : Nat) (ps : List Value)
    (h : k < beg) :
    readChunk (writeChunks s beg ps) k = readChunk s k := by
  induction ps generalizing s beg with
  | nil => rfl
  | cons p ps ih =>
      have h2 := ih (writeChunk s p beg) (beg + 1) (by omega)
      rw [show writeChunks s beg (p :: ps) =
          writeChunks (writeChunk s p beg) (beg + 1) ps from rfl, h2]
      exact getRec_putRec_ne _ _ _ _ (by omega)

/-- Reading back the chunk range just written concatenates to the original pieces. -/
theorem readRange_writeChunks (s : QueueState) (beg : Nat) (ps : List Value) :
    readRange (writeChunks s beg ps) beg ps.length = ps.flatten := by
  induction ps generalizing s beg with
  | nil => rfl
  | cons p ps ih =>
      have hr : readChunk (writeChunks (writeChunk s p beg) (beg + 1) ps) beg
          = some p := by
        rw [readChunk_writeChunks_lt _ _ _ _ (by omega)]
        exact getRec_putRec_same _ _ _
      calc readRange (writeChunks s beg (p :: ps)) beg (p :: ps).length
          = (readChunk (writeChunks (writeChunk s p beg) (beg + 1) ps) beg).getD []
              ++ readRange (writeChunks (writeChunk s p beg) (beg + 1) ps) (beg + 1)
                  ps.length := rfl
        _ = p ++ ps.flatten := by
              rw [hr, ih (writeChunk s p beg) (beg + 1)]
              rfl
        _ = (p :: ps).flatten := rfl

/-- `readRange` depends only on the chunk namespace of the journal. -/
theorem readRange_congr (s t : QueueState) (beg n : Nat)
    (h : s.journal.chunkRecs = t.journal.chunkRecs) :
    readRange s beg n = readRange t beg n := by
  induction n generalizing beg with
  | zero => rfl
  | succ n ih =>
      show (readChunk s beg).getD [] ++ readRange s (beg + 1) n = _
      unfold readChunk getRec
      rw [h, ih (beg + 1)]
      rfl

/-- Claim C1 (amended): pushing an inline payload that pop_open does not classify as
a chunked header round-trips unchanged through pop_open; a chunked item assembled by
reserve_chunks, write_chunk and push(header) round-trips: pop_open returns its
header with an empty value, concatenating read_chunk over `[beg, end)` recovers the
producer payload, and the header size field equals its total byte length. -/
theorem push_pop_roundtrip (s : QueueState) (b : Value) (ps : List Value)
    (hret : s.returned = ∅) (hempty : s.queue_tail = s.queue_head) :
    (¬ (b.length = headerLen ∧ (decodeHeader b).beg < (decodeHeader b).end_ ∧
          (decodeHeader b).end_ ≤ s.chunks_head) →
        (popOpen (push s b).1).1 = some ((push s b).2, (none, b))) ∧
    (ps ≠ [] → s.chunks_head + ps.length < 2 ^ 64 → ps.flatten.length < 2 ^ 64 →
        (popOpen (produceChunked s ps).1).1 =
          some ((produceChunked s ps).2,
            (some ⟨s.chunks_head, s.chunks_head + ps.length, ps.flatten.length⟩,
              [])) ∧
        readRange (produceChunked s ps).1 s.chunks_head ps.length = ps.flatten ∧
        (⟨s.chunks_head, s.chunks_head + ps.length, ps.flatten.length⟩ :
          Header).size = ps.flatten.length) := by
  constructor
  · intro hnc
    have hret1 : (push s b).1.returned = ∅ := hret
    have htl1 : (push s b).1.queue_tail < (push s b).1.queue_head := by
      show s.queue_tail < s.queue_head + 1
      omega
    have hv1 : getRec (push s b).1.journal.queueRecs (push s b).1.queue_tail =
        some b := by
      show getRec (putRec s.journal.queueRecs s.queue_head b) s.queue_tail = some b
      rw [hempty]
      exact getRec_putRec_same _ _ _
    have key := popOpen_tail_case (push s b).1 b hret1 htl1 hv1
    rw [key]
    have hcl : classify (push s b).1 b = (none, b) := by
      show (if b.length = headerLen ∧ (decodeHeader b).beg < (decodeHeader b).end_ ∧
          (decodeHeader b).end_ ≤ s.chunks_head then
        (some (decodeHeader b), ([] : Value)) else (none, b)) = (none, b)
      rw [if_neg hnc]
    rw [hcl]
    show some (s.queue_tail, (none, b)) = some (s.queue_head, (none, b))
    rw [hempty]
  · intro hne hbound hsize
    obtain ⟨hwq, hwh, hwt, hwc, _, hwr⟩ :=
      writeChunks_fields (reserveChunks s ps.length).2
        (reserveChunks s ps.length).1.beg ps
    have hlen : 0 < ps.length := List.length_pos.mpr hne
    have hdr_eq : decodeHeader (encodeHeader
        ⟨(reserveChunks s ps.length).1.beg, (reserveChunks s ps.length).1.end_,
          ps.flatten.length⟩) =
        ⟨s.chunks_head, s.chunks_head + ps.length, ps.flatten.length⟩ := by
      exact decodeHeader_encodeHeader _ (by show s.chunks_head < 2 ^ 64; omega)
        (by show s.chunks_head + ps.length < 2 ^ 64; omega) hsize
    have hret3 : (produceChunked s ps).1.returned = ∅ := by
      show (writeChunks (reserveChunks s ps.length).2
          (reserveChunks s ps.length).1.beg ps).returned = ∅
      rw [hwr]
      exact hret
    have htl3 : (produceChunked s ps).1.queue_tail <
        (produceChunked s ps).1.queue_head := by
      show (writeChunks (reserveChunks s ps.length).2
          (reserveChunks s ps.length).1.beg ps).queue_tail <
        (writeChunks (reserveChunks s ps.length).2
          (reserveChunks s ps.length).1.beg ps).queue_head + 1
      rw [hwt, hwh]
      show s.queue_tail < s.queue_head + 1
      omega
    have hv3 : getRec (produceChunked s ps).1.journal.queueRecs
        (produceChunked s ps).1.queue_tail =
        some (encodeHeader ⟨(reserveChunks s ps.length).1.beg,
          (reserveChunks s ps.length).1.end_, ps.flatten.length⟩) := by
      show getRec (putRec (writeChunks (reserveChunks s ps.length).2
            (reserveChunks s ps.length).1.beg ps).journal.queueRecs
          (writeChunks (reserveChunks s ps.length).2
            (reserveChunks s ps.length).1.beg ps).queue_head _)
        (writeChunks (reserveChunks s ps.length).2
            (reserveChunks s ps.length).1.beg ps).queue_tail = _
      rw [hwt, hwh]
      show getRec (putRec _ s.queue_head _) s.queue_tail = _
      rw [hempty]
      exact getRec_putRec_same _ _ _
    have key := popOpen_tail_case (produceChunked s ps).1 _ hret3 htl3 hv3
    have hcl : classify (produceChunked s ps).1 (encodeHeader
        ⟨(reserveChunks s ps.length).1.beg, (reserveChunks s ps.length).1.end_,
          ps.flatten.length⟩) =
        (some ⟨s.chunks_head, s.chunks_head + ps.length, ps.flatten.length⟩, []) := by
      unfold classify
      rw [if_pos]
      · rw [hdr_eq]
      · refine ⟨encodeHeader_length _, ?_⟩
        rw [hdr_eq]
        have hch3 : (produceChunked s ps).1.chunks_head =
            s.chunks_head + ps.length := by
          show (writeChunks (reserveChunks s ps.length).2
              (reserveChunks s ps.length).1.beg ps).chunks_head = _
          rw [hwc]
          rfl
        rw [hch3]
        show s.chunks_head < s.chunks_head + ps.length ∧
          s.chunks_head + ps.length ≤ s.chunks_head + ps.length
        exact ⟨by omega, le_refl _⟩
    refine ⟨?_, ?_, rfl⟩
    · rw [key, hcl]
      show some ((writeChunks (reserveChunks s ps.length).2
          (reserveChunks s ps.length).1.beg ps).queue_tail, _) =
        some ((writeChunks (reserveChunks s ps.length).2
          (reserveChunks s ps.length).1.beg ps).queue_head, _)
      rw [hwt, hwh]
      show some (s.queue_tail,
          (some (⟨s.chunks_head, s.chunks_head + ps.length, ps.flatten.length⟩ :
            Header), ([] : Value))) =
        some (s.queue_head,
          (some (⟨s.chunks_head, s.chunks_head + ps.length, ps.flatten.length⟩ :
            Header), ([] : Value)))
      rw [hempty]
    · have hcongr : readRange (produceChunked s ps).1 s.chunks_head ps.length =
          readRange (writeChunks (reserveChunks s ps.length).2
            (reserveChunks s ps.length).1.beg ps) s.chunks_head ps.length :=
        readRange_congr _ _ _ _ rfl
      rw [hcongr]
      exact readRange_writeChunks (reserveChunks s ps.length).2
        (reserveChunks s ps.length).1.beg ps

/-- Counterexample to C1 as stated: pushing the non-empty 24-byte payload that
happens to equal an encoded header with a valid chunk range, pop_open yields a
chunked result with an empty value instead of the pushed payload. -/
theorem push_pop_roundtrip_cex :
    ambiguousPayload ≠ [] ∧
    (popOpen ambiguousState).1 = some (0, (some ⟨0, 1, 0⟩, [])) := by
  constructor
  · decide
  · decide

/-- Witness for C1 at concrete inputs: a 1-byte inline payload round-trips, and a
two-piece chunked item round-trips with its header and concatenated chunks. -/
theorem push_pop_roundtrip_witness :
    (popOpen (push initState [9]).1).1 = some (0, (none, [9])) ∧
    (popOpen (produceChunked initState [[65], [66]]).1).1 =
      some (0, (some ⟨0, 2, 2⟩, [])) ∧
    readRange (produceChunked initState [[65], [66]]).1 0 2 = [65, 66] := by
  have h := push_pop_roundtrip initState [9] [[65], [66]] rfl rfl
  have h2 := h.2 (by decide) (by decide) (by decide)
  exact ⟨(h.1 (by decide)).trans (by decide), h2.1.trans (by decide),
    h2.2.1.trans (by decide)⟩

/-- Claim C7 (amended): recovery scans the journal: `returned` starts empty,
`items_open` at 0, `queue_tail` at the minimum surviving QUEUE id (0 if none),
`queue_head` at the maximum QUEUE id plus one (0 if none); every surviving item -
including each item open at crash time - lies in `[queue_tail, queue_head)` and so
is enqueued again; and `count()` equals the number of surviving items (K open plus
J enqueued) provided the surviving ids form a contiguous range - gaps left by
out-of-order removals inflate the count beyond K + J. -/
theorem recover_spec (j : Journal) :
    (recover j).returned = ∅ ∧ (recover j).items_open = 0 ∧
    (∀ h : (queueIds j).Nonempty,
        (recover j).queue_tail = (queueIds j).min' h ∧
        (recover j).queue_head = (queueIds j).max' h + 1) ∧
    (queueIds j = ∅ → (recover j).queue_tail = 0 ∧ (recover j).queue_head = 0) ∧
    (∀ id ∈ queueIds j,
        (recover j).queue_tail ≤ id ∧ id < (recover j).queue_head) ∧
    (∀ a b, queueIds j = Finset.Ico a b →
        count (recover j) = (queueIds j).card) := by
  have et : (recover j).queue_tail =
      (if h : (queueIds j).Nonempty then (queueIds j).min' h else 0) := rfl
  have eh : (recover j).queue_head =
      (if h : (queueIds j).Nonempty then (queueIds j).max' h + 1 else 0) := rfl
  have ec : count (recover j) = (recover j).queue_head - (recover j).queue_tail := by
    show (recover j).queue_head - (recover j).queue_tail + (∅ : Finset Nat).card = _
    rw [Finset.card_empty]
    rfl
  refine ⟨rfl, rfl, ?_, ?_, ?_, ?_⟩
  · intro h
    rw [et, eh, dif_pos h, dif_pos h]
    exact ⟨rfl, rfl⟩
  · intro he
    have hne : ¬ (queueIds j).Nonempty := by
      rw [Finset.not_nonempty_iff_eq_empty]; exact he
    rw [et, eh, dif_neg hne, dif_neg hne]
    exact ⟨rfl, rfl⟩
  · intro id hid
    have h : (queueIds j).Nonempty := ⟨id, hid⟩
    rw [et, eh, dif_pos h, dif_pos h]
    exact ⟨Finset.min'_le _ _ hid, Nat.lt_succ_of_le (Finset.le_max' _ _ hid)⟩
  · intro a b hab
    by_cases h : (queueIds j).Nonempty
    · obtain ⟨x, hx⟩ := h
      have hax : a ≤ x ∧ x < b := by
        rw [hab] at hx; exact Finset.mem_Ico.mp hx
      have hab2 : a < b := lt_of_le_of_lt hax.1 hax.2
      have hmem_a : a ∈ queueIds j := by
        rw [hab]; exact Finset.mem_Ico.mpr ⟨le_refl a, hab2⟩
      have hmem_b : b - 1 ∈ queueIds j := by
        rw [hab]; exact Finset.mem_Ico.mpr ⟨by omega, by omega⟩
      have hmin : (queueIds j).min' ⟨x, hx⟩ = a :=
        le_antisymm (Finset.min'_le _ _ hmem_a)
          (Finset.le_min' _ _ _ (fun y hy => by
            rw [hab] at hy; exact (Finset.mem_Ico.mp hy).1))
      have hmax : (queueIds j).max' ⟨x, hx⟩ = b - 1 :=
        le_antisymm
          (Finset.max'_le _ _ _ (fun y hy => by
            rw [hab] at hy
            have := (Finset.mem_Ico.mp hy).2
            omega))
          (Finset.le_max' _ _ hmem_b)
      rw [ec, et, eh, dif_pos ⟨x, hx⟩, dif_pos ⟨x, hx⟩, hmin, hmax, hab,
        Nat.card_Ico]
      omega
    · have he : queueIds j = ∅ := Finset.not_nonempty_iff_eq_empty.mp h
      rw [ec, et, eh, dif_neg h, dif_neg h, he, Finset.card_empty]

/-- Counterexample to C7 as stated: crash with items 0 and 2 open (K = 2) after the
out-of-order removal of item 1, nothing enqueued and nothing returned (J = 0);
recovery counts 3 items, not K + J = 2, because the gap at id 1 is inside
`[queue_tail, queue_head)` again. -/
theorem recover_count_cex :
    gapState.items_open = 2 ∧ count gapState = 0 ∧
    count (recover gapState.journal) = 3 ∧
    count (recover gapState.journal) ≠ gapState.items_open + count gapState := by
  refine ⟨by decide, by decide, by decide, by decide⟩

/-- Witness for C7 at a concrete journal: surviving contiguous ids 1 and 2 recover
to tail 1, head 3, and a count of 2 - the number of surviving items. -/
theorem recover_spec_witness :
    (recover recoverExJournal).queue_tail = 1 ∧
    (recover recoverExJournal).queue_head = 3 ∧
    count (recover recoverExJournal) = 2 := by
  have h3 := ((recover_spec recoverExJournal).2.2.1 (of_decide_eq_true rfl))
  have h6 := (recover_spec recoverExJournal).2.2.2.2.2 1 3 (by decide)
  exact ⟨h3.1.trans (by decide), h3.2.trans (by decide), h6.trans (by decide)⟩

/-- Registering waiters appends them, in order, to the waiter list. -/
theorem registerAll_spec (ws : List Nat) (a : Nat) (l : List Nat)
    (f : List (Nat × Bool)) :
    registerAll ⟨a, l, f⟩ ws = ⟨a, l ++ ws, f⟩ := by
  induction ws generalizing l with
  | nil => simp [registerAll]
  | cons w ws ih =>
      show registerAll ⟨a, l ++ [w], f⟩ ws = _
      rw [ih]
      simp

/-- The spin loop stops immediately when nothing is available. -/
theorem spinGo_avail_zero (fuel : Nat) (l : List Nat) (f : List (Nat × Bool)) :
    spinGo fuel ⟨0, l, f⟩ = ⟨0, l, f⟩ := by
  cases fuel with
  | zero => rfl
  | succ n =>
      cases l with
      | nil => rfl
      | cons w rest => rfl

/-- A push against an idle scheduler with pending waiters wakes exactly the oldest
waiter, with success. -/
theorem pushAvail_step (w : Nat) (rest : List Nat) (f : List (Nat × Bool)) :
    pushAvail ⟨0, w :: rest, f⟩ = ⟨0, rest, f ++ [(w, true)]⟩ :=
  spinGo_avail_zero rest.length rest (f ++ [(w, true)])

/-- `m ≤ N` pushes against an idle scheduler with `N` pending waiters fire exactly
the first `m` waiters with success, in order. -/
theorem pushN_fires (m : Nat) (ws : List Nat) (f : List (Nat × Bool))
    (hm : m ≤ ws.length) :
    pushN ⟨0, ws, f⟩ m =
      ⟨0, ws.drop m, f ++ (ws.take m).map (fun w => (w, true))⟩ := by
  induction m generalizing ws f with
  | zero => simp [pushN]
  | succ m ih =>
      cases ws with
      | nil => simp at hm
      | cons w rest =>
          show pushN (pushAvail ⟨0, w :: rest, f⟩) m = _
          rw [pushAvail_step]
          rw [ih rest (f ++ [(w, true)]) (by simpa using hm)]
          simp

/-- Claim C8: for `N` wait registrations followed by `M ≤ N` pushes (with deadlines
that have not yet elapsed), exactly the first `M` waiters in registration order fire
with success, in that order; the remaining `N - M` fire with timeout; and each
waiter fires exactly once. -/
theorem waiter_fifo_fairness (ws : List Nat) (m : Nat) (hm : m ≤ ws.length) :
    (timeoutAll (pushN (registerAll waitInit ws) m)).fired =
      (ws.take m).map (fun w => (w, true)) ++
        (ws.drop m).map (fun w => (w, false)) ∧
    (timeoutAll (pushN (registerAll waitInit ws) m)).fired.map Prod.fst = ws := by
  have hreg : registerAll waitInit ws = ⟨0, ws, []⟩ := by
    have h := registerAll_spec ws 0 [] []
    simpa using h
  rw [hreg, pushN_fires m ws [] hm]
  constructor
  · simp [timeoutAll]
  · show ((([] : List (Nat × Bool)) ++ (ws.take m).map (fun w => (w, true))) ++
        (ws.drop m).map (fun w => (w, false))).map Prod.fst = ws
    have hfst : ∀ (b : Bool), (Prod.fst ∘ fun w : Nat => (w, b)) = id := by
      intro b
      funext w
      rfl
    rw [List.nil_append, List.map_append, List.map_map, List.map_map, hfst, hfst,
      List.map_id, List.map_id]
    exact List.take_append_drop m ws

/-- Witness for C8 at concrete inputs: of three registered waiters and two pushes,
waiters 1 and 2 fire with success in order and waiter 3 times out. -/
theorem waiter_fifo_fairness_witness :
    (timeoutAll (pushN (registerAll waitInit [1, 2, 3]) 2)).fired =
      [(1, true), (2, true), (3, false)] := by
  have h := waiter_fifo_fairness [1, 2, 3] 2 (by decide)
  exact h.1.trans (by decide)

end Darner
